import Mathlib

/-!
Verification development for the material-descriptor parsing and validation
core (a C++ command-line material XML browser).  The definitions below are a
shallow embedding of the C++ source:

* `materials_parser.hpp`: `trim_copy`, `xml_unescape`, `is_name_char`,
  `XmlNode` with `find_child`, `find_tag_end`, `parse_attributes_blob`,
  `read_opening_tag`, `find_closing_tag`, `build_node_from_string`.
* `main.cpp`: `fnv1a`, `to_hex8`, `parse_semver`, `semver_compare`,
  `has_required_structure`, `validate_version_checksum_and_range`.

C++ `std::string` buffers are modelled as `List Char` (positions are `Nat`
indices) or as `String` for whole fields; machine integers are `Nat` with an
explicit `% 2^32` where the C++ relies on `uint32_t` wraparound.  Recursive
scanning loops are expressed with a structural fuel argument whose initial
value is large enough for every reachable input (each C++ loop iteration
advances its cursor by at least one position, so `length + 1` steps suffice);
running out of fuel reproduces the loop's plain exit.
-/

namespace MaterialDB

/-- C locale `isspace`: space, \t, \n, \v, \f, \r. -/
def isSpaceC (c : Char) : Bool :=
  c = ' ' ∨ c = '\t' ∨ c = '\n' ∨ c = '\x0b' ∨ c = '\x0c' ∨ c = '\r'

/-- C locale `isdigit`. -/
def isDigitC (c : Char) : Bool := '0' ≤ c ∧ c ≤ '9'

/-- C locale `isxdigit`. -/
def isXdigit (c : Char) : Bool :=
  isDigitC c ∨ ('a' ≤ c ∧ c ≤ 'f') ∨ ('A' ≤ c ∧ c ≤ 'F')

/-- C locale `isalpha`. -/
def isAlphaC (c : Char) : Bool :=
  ('a' ≤ c ∧ c ≤ 'z') ∨ ('A' ≤ c ∧ c ≤ 'Z')

/-- C++ `is_name_char` from materials_parser.hpp: alnum or `_`, `:`, `-`, `.`. -/
def isNameChar (c : Char) : Bool :=
  isAlphaC c ∨ isDigitC c ∨ c = '_' ∨ c = ':' ∨ c = '-' ∨ c = '.'

/-- C++ `trim_copy` on a character list: strip leading and trailing whitespace. -/
def trimList (l : List Char) : List Char :=
  ((l.dropWhile isSpaceC).reverse.dropWhile isSpaceC).reverse

/-- C++ `trim_copy` on strings. -/
def trimStr (s : String) : String := String.mk (trimList s.toList)

/-- C++ `xml_unescape`: decode the five standard entities, pass through any other
`&` sequence unchanged. -/
def unescapeList : List Char → List Char
  | [] => []
  | '&' :: 'q' :: 'u' :: 'o' :: 't' :: ';' :: rest => '"' :: unescapeList rest
  | '&' :: 'a' :: 'p' :: 'o' :: 's' :: ';' :: rest => '\'' :: unescapeList rest
  | '&' :: 'a' :: 'm' :: 'p' :: ';' :: rest => '&' :: unescapeList rest
  | '&' :: 'l' :: 't' :: ';' :: rest => '<' :: unescapeList rest
  | '&' :: 'g' :: 't' :: ';' :: rest => '>' :: unescapeList rest
  | '&' :: rest => '&' :: unescapeList rest
  | c :: rest => c :: unescapeList rest

/-- UTF-8 encoding of one character, as the byte values a C++ `std::string`
holds for it. -/
def utf8Bytes (c : Char) : List Nat :=
  let n := c.toNat
  if n < 128 then [n]
  else if n < 2048 then [192 + n / 64, 128 + n % 64]
  else if n < 65536 then [224 + n / 4096, 128 + n / 64 % 64, 128 + n % 64]
  else [240 + n / 262144, 128 + n / 4096 % 64, 128 + n / 64 % 64, 128 + n % 64]

/-- Byte sequence of a string (UTF-8, as iterated by C++ `for (unsigned char c : s)`). -/
def bytesOfChars : List Char → List Nat
  | [] => []
  | c :: rest => utf8Bytes c ++ bytesOfChars rest

/-- C++ `fnv1a` from main.cpp: 32-bit FNV-1a over the bytes of the string,
offset basis 0x811C9DC5, prime 16777619, with `uint32_t` wraparound. -/
def fnv1a (s : String) : Nat :=
  (bytesOfChars s.toList).foldl (fun h b => ((h ^^^ b) * 16777619) % 4294967296) 2166136261

/-- One uppercase hexadecimal digit (for a value < 16). -/
def hexDigitU (n : Nat) : Char :=
  if n < 10 then Char.ofNat (48 + n) else Char.ofNat (55 + n)

/-- C++ `to_hex8` from main.cpp: `sprintf("%08X", v)` for a 32-bit value. -/
def to_hex8 (v : Nat) : String :=
  String.mk [hexDigitU (v / 16 ^ 7 % 16), hexDigitU (v / 16 ^ 6 % 16),
    hexDigitU (v / 16 ^ 5 % 16), hexDigitU (v / 16 ^ 4 % 16),
    hexDigitU (v / 16 ^ 3 % 16), hexDigitU (v / 16 ^ 2 % 16),
    hexDigitU (v / 16 % 16), hexDigitU (v % 16)]

/-- Numeric value of an uppercase/lowercase hex digit. -/
def hexValU (c : Char) : Nat :=
  if isDigitC c then c.toNat - 48
  else if 'a' ≤ c ∧ c ≤ 'f' then c.toNat - 87
  else c.toNat - 55

/-- Value denoted by a hexadecimal digit string. -/
def hexToNat (s : String) : Nat :=
  s.toList.foldl (fun n c => n * 16 + hexValU c) 0

/-- Uppercase hexadecimal digit predicate (characters `%08X` can produce). -/
def isUpperHexDigit (c : Char) : Bool := isDigitC c ∨ ('A' ≤ c ∧ c ≤ 'F')

/-- C `toupper` (C locale) over a whole string, as `main.cpp`'s `up` lambda. -/
def strUpper (s : String) : String := String.mk (s.toList.map Char.toUpper)

/-- Split a character list at every `.` (every segment kept, including a
final empty one). -/
def splitOnDot : List Char → List (List Char)
  | [] => [[]]
  | c :: rest =>
    if c = '.' then [] :: splitOnDot rest
    else
      match splitOnDot rest with
      | [] => [[c]]
      | h :: tl => (c :: h) :: tl

/-- The segment list `std::getline(ss, item, '.')` yields: like `splitOnDot`,
except that a trailing delimiter produces no final empty segment. -/
def getlineSplit (t : List Char) : List (List Char) :=
  if t.getLast? = some '.' then (splitOnDot t).dropLast else splitOnDot t

/-- Decimal value of a digit list (as `std::stoi` on an all-digit string). -/
def natOfDigits (l : List Char) : Nat :=
  l.foldl (fun n c => n * 10 + (c.toNat - 48)) 0

/-- One segment of a dotted version string: empty means 0, an all-digit
segment is its value unless `std::stoi` would overflow `int`, anything else
fails. -/
def parseSegment (seg : List Char) : Option Nat :=
  if seg = [] then some 0
  else if seg.all isDigitC then
    let v := natOfDigits seg
    if v ≤ 2147483647 then some v else none
  else none

/-- Value of `parts[i]` when present, else the `(0,0,0)` initialisation of `out`. -/
def partAt (parts : List Nat) (i : Nat) : Nat := (parts[i]?).getD 0

/-- The `while (std::getline(ss, item, '.'))` loop of `parse_semver`: parse
every segment in order, failing as soon as one segment fails. -/
def parseAll : List (List Char) → Option (List Nat)
  | [] => some []
  | seg :: rest =>
    match parseSegment seg, parseAll rest with
    | some v, some vs => some (v :: vs)
    | _, _ => none

/-- C++ `parse_semver` from main.cpp: trim, split on `.` with getline semantics,
each segment all digits (empty = 0), keep the first three. -/
def parse_semver (s : String) : Option (Nat × Nat × Nat) :=
  let t := trimList s.toList
  if t = [] then none
  else
    match parseAll (getlineSplit t) with
    | none => none
    | some parts => some (partAt parts 0, partAt parts 1, partAt parts 2)

/-- C++ `semver_compare` from main.cpp: -1, 0, +1 by major, then minor, then patch. -/
def semver_compare (a b : Nat × Nat × Nat) : Int :=
  if a.1 < b.1 then -1
  else if b.1 < a.1 then 1
  else if a.2.1 < b.2.1 then -1
  else if b.2.1 < a.2.1 then 1
  else if a.2.2 < b.2.2 then -1
  else if b.2.2 < a.2.2 then 1
  else 0

/-- C++ `XmlNode` from materials_parser.hpp: tag name, inner text, attributes,
ordered children. -/
inductive XmlNode : Type where
  | mk (name : String) (inner_text : String) (attrs : List (String × String))
      (children : List XmlNode)

def XmlNode.name : XmlNode → String
  | .mk n _ _ _ => n

def XmlNode.inner_text : XmlNode → String
  | .mk _ t _ _ => t

def XmlNode.attrs : XmlNode → List (String × String)
  | .mk _ _ a _ => a

def XmlNode.children : XmlNode → List XmlNode
  | .mk _ _ _ cs => cs

/-- C++ `XmlNode::find_child`: first direct child with the given tag name. -/
def XmlNode.find_child (n : XmlNode) (tag : String) : Option XmlNode :=
  n.children.find? (fun c => c.name == tag)

/-- C++ `has_required_structure` from main.cpp, with the outcome carried in
`Except` instead of a bool plus an out-parameter message. -/
def has_required_structure (root : XmlNode) : Except String Unit :=
  if root.name ≠ "Material" then .error "Root element must be <Material>"
  else
    match root.find_child "Metadata" with
    | none => .error "Missing <Metadata>"
    | some meta =>
      match meta.find_child "Id" with
      | none => .error "Missing <Id> in <Metadata>"
      | some _ =>
        match meta.find_child "Name" with
        | none => .error "Missing <Name> in <Metadata>"
        | some _ =>
          match meta.find_child "Version" with
          | none => .error "Missing <Version> in <Metadata>"
          | some _ =>
            match root.find_child "Category" with
            | none => .error "Missing <Category>"
            | some cat =>
              match cat.find_child "Property" with
              | none => .error "Missing <Property> inside <Category>"
              | some _ =>
                match cat.find_child "Model" with
                | none => .error "Missing <Model>    inside <Category>"
                | some _ => .ok ()

/-- The C++ `verfield.rfind` call followed by the two `substr` calls: split a
character list at its last `-`, if any. -/
def splitAtLastDash : List Char → Option (List Char × List Char)
  | [] => none
  | c :: rest =>
    match splitAtLastDash rest with
    | some (a, b) => some (c :: a, b)
    | none => if c = '-' then some ([], rest) else none

/-- The semantic-version range portion of `validate_version_checksum_and_range`
(lines 158-174 of main.cpp), reached once the checksum has been accepted. -/
def check_version_range (verpart min_supported_ver sim_ver : String) :
    Except String String :=
  match parse_semver verpart with
  | none => .error ("Failed to parse semantic version part: '" ++ verpart ++ "'")
  | some xmlv =>
    match parse_semver min_supported_ver with
    | none => .error "Internal error: bad MIN_SUPPORTED_VERSION macro"
    | some minv =>
      match parse_semver sim_ver with
      | none => .error "Internal error: bad SIM_VERSION macro"
      | some simv =>
        if semver_compare xmlv minv < 0 then
          .error ("Material XML version '" ++ verpart ++ "' is too old (minimum supported is "
            ++ min_supported_ver ++ ")")
        else if semver_compare xmlv simv > 0 then
          .error ("Material XML version '" ++ verpart ++ "' is newer than simulator ("
            ++ sim_ver ++ "). Update simulator or use an older XML.")
        else .ok verpart

/-- C++ `validate_version_checksum_and_range` from main.cpp: extract `<Id>` and
`<Version>` from `<Metadata>`, split the version field at its last `-`,
check the 8-hex-digit checksum against FNV-1a of the id, then range-check the
semantic version. `.ok` carries `out_version_str`. -/
def validate_version_checksum_and_range (root : XmlNode)
    (min_supported_ver sim_ver : String) : Except String String :=
  match root.find_child "Metadata" with
  | none => .error "Missing <Metadata>"
  | some meta =>
    match meta.find_child "Id" with
    | none => .error "Missing <Id>"
    | some idNode =>
      match meta.find_child "Version" with
      | none => .error "Missing <Version>"
      | some verNode =>
        let id := idNode.inner_text
        let verfield := verNode.inner_text
        if id = "" then .error "<Id> is empty"
        else if verfield = "" then .error "<Version> is empty"
        else
          match splitAtLastDash verfield.toList with
          | none =>
            .error "<Version> must be in format MAJOR.MINOR.PATCH-CHECKSUM (e.g. 1.0.0-10C18EDC)"
          | some (vl, cl) =>
            let verpart := String.mk vl
            let checksum_part := String.mk cl
            if cl.length ≠ 8 then .error "Checksum part must have 8 hex characters"
            else if ¬ (cl.all isXdigit) then .error "Checksum contains non-hex characters"
            else
              let expected := to_hex8 (fnv1a id)
              if strUpper checksum_part ≠ strUpper expected then
                .error ("Checksum mismatch: expected " ++ expected ++ " for Id='" ++ id
                  ++ "' but Version has " ++ checksum_part)
              else check_version_range verpart min_supported_ver sim_ver

/-! ### The XML parser (materials_parser.hpp) -/

/-- Scanning core of `find_tag_end`: walk the remaining characters keeping the
current quote character (if inside a quoted span); `i` is the absolute index of
the head character. -/
def fteGo : List Char → Option Char → Nat → Option Nat
  | [], _, _ => none
  | c :: rest, none, i =>
    if c = '"' ∨ c = '\'' then fteGo rest (some c) (i + 1)
    else if c = '>' then some i
    else fteGo rest none (i + 1)
  | c :: rest, some q, i =>
    if c = q then fteGo rest none (i + 1) else fteGo rest (some q) (i + 1)

/-- C++ `find_tag_end`: position of the first `>` at or after `pos` that is not
inside a single- or double-quoted span. -/
def find_tag_end (s : List Char) (pos : Nat) : Option Nat :=
  fteGo (s.drop pos) none pos

/-- Whether `pat` is an initial segment of `l` (C++ `compare(pos, n, pat) == 0`). -/
def listStartsWith : List Char → List Char → Bool
  | [], _ => true
  | _ :: _, [] => false
  | p :: ps, c :: cs => p = c ∧ listStartsWith ps cs

/-- Search core for `std::string::find(pat, pos)`: first absolute index `i`
(counting from the given offset) where `pat` starts. -/
def findSubFromAux (pat : List Char) : List Char → Nat → Option Nat
  | [], i => if pat = [] then some i else none
  | l@(_ :: rest), i =>
    if listStartsWith pat l then some i else findSubFromAux pat rest (i + 1)

/-- C++ `std::string::find(pat, pos)` on a character list. -/
def findSubFrom (s : List Char) (pat : List Char) (pos : Nat) : Option Nat :=
  findSubFromAux pat (s.drop pos) pos

/-- C++ `std::string::find(c, pos)` on a character list. -/
def findCharFrom (s : List Char) (c : Char) (pos : Nat) : Option Nat :=
  findSubFrom s [c] pos

/-- C++ `std::map` bracket assignment: overwrite the value if the key is
present, otherwise add the binding. -/
def attrInsert (m : List (String × String)) (k v : String) : List (String × String) :=
  if m.any (fun p => p.1 == k) then m.map (fun p => if p.1 = k then (k, v) else p)
  else m ++ [(k, v)]

/-- Strip trailing whitespace only (the `while … pop_back()` after removing a
trailing `/` in `read_opening_tag`). -/
def dropTrailingSpaces (l : List Char) : List Char :=
  (l.reverse.dropWhile isSpaceC).reverse

/-- Loop body of `parse_attributes_blob`.  The C++ `while (i < blob.size())`
loop consumes at least one character per iteration, so `blob.length + 1` fuel
(as passed by `parse_attributes_blob`) never runs out. -/
def attrsGo : Nat → List Char → List (String × String) → List (String × String)
  | 0, _, m => m
  | _ + 1, [], m => m
  | fuel + 1, c :: rest, m =>
    if isSpaceC c then attrsGo fuel rest m
    else if ¬ isNameChar c then attrsGo fuel rest m
    else
      let name := String.mk ((c :: rest).takeWhile isNameChar)
      let r2 := ((c :: rest).dropWhile isNameChar).dropWhile isSpaceC
      match r2 with
      | [] => attrInsert m name ""
      | e :: r3 =>
        if e = '=' then
          let r4 := r3.dropWhile isSpaceC
          match r4 with
          | [] => attrInsert m name ""
          | q :: r5 =>
            if q = '"' ∨ q = '\'' then
              match findSubFromAux [q] r5 0 with
              | none => attrInsert m name (String.mk (unescapeList r5))
              | some k =>
                attrsGo fuel (r5.drop (k + 1))
                  (attrInsert m name (String.mk (unescapeList (r5.take k))))
            else
              let val := r4.takeWhile (fun ch => ¬ isSpaceC ch)
              attrsGo fuel (r4.dropWhile (fun ch => ¬ isSpaceC ch))
                (attrInsert m name (String.mk (unescapeList val)))
        else attrsGo fuel r2 (attrInsert m name "")

/-- C++ `parse_attributes_blob`: name→value pairs from the raw text between a tag
name and its closing `>`. -/
def parse_attributes_blob (blob : List Char) : List (String × String) :=
  attrsGo (blob.length + 1) blob []

/-- C++ `read_opening_tag`: at an opening `<`, read the tag name and the raw
attribute fragment; returns `(name, attr_blob, tag_end)` (`tag_start` is the
given `pos` itself). -/
def read_opening_tag (s : List Char) (pos : Nat) :
    Option (String × List Char × Nat) :=
  if s[pos]? ≠ some '<' then none
  else
    match find_tag_end s pos with
    | none => none
    | some gt =>
      let header := (s.take gt).drop (pos + 1)
      let h2 := header.dropWhile isSpaceC
      if h2.head? = some '?' ∨ h2.head? = some '!' then none
      else
        let nm := h2.takeWhile isNameChar
        if nm = [] then none
        else
          let rest := h2.dropWhile isNameChar
          let mid := trimList rest
          let mid2 :=
            if mid.getLast? = some '/' then dropTrailingSpaces mid.dropLast else mid
          some (String.mk nm, mid2, gt)

/-- Depth-counting loop of `find_closing_tag` (lines 200-244): scan for the
matching close of `tag`, skipping comments and `<?…?>` spans, incrementing the
depth at a nested same-name open and decrementing at a same-name close.
Every iteration moves `pos` forward, so `s.length + 1` fuel never runs out. -/
def fctLoop (s : List Char) (tag : String) : Nat → Nat → Nat → Option Nat
  | 0, _, _ => none
  | fuel + 1, pos, depth =>
    match findCharFrom s '<' pos with
    | none => none
    | some lt =>
      if listStartsWith "<!--".toList (s.drop lt) then
        match findSubFrom s "-->".toList (lt + 4) with
        | none => none
        | some q => fctLoop s tag fuel (q + 3) depth
      else if listStartsWith "<?".toList (s.drop lt) then
        match findSubFrom s "?>".toList (lt + 2) with
        | none => none
        | some q => fctLoop s tag fuel (q + 2) depth
      else if s[lt + 1]? = some '/' then
        match find_tag_end s lt with
        | none => none
        | some gt =>
          let cname :=
            String.mk ((((s.take gt).drop (lt + 2)).dropWhile isSpaceC).takeWhile isNameChar)
          if cname = tag then
            if depth = 1 then some lt else fctLoop s tag fuel (gt + 1) (depth - 1)
          else fctLoop s tag fuel (gt + 1) depth
      else
        match find_tag_end s lt with
        | none => none
        | some gt =>
          let after := ((s.take gt).drop (lt + 1)).dropWhile isSpaceC
          if after.head? = some '?' ∨ after.head? = some '!' then
            fctLoop s tag fuel (gt + 1) depth
          else
            let nm := after.takeWhile isNameChar
            if nm ≠ [] ∧ String.mk nm = tag then fctLoop s tag fuel (gt + 1) (depth + 1)
            else fctLoop s tag fuel (gt + 1) depth

/-- C++ `find_closing_tag`: the triple `(close_pos, inner_start, inner_end)` of the element
whose opening `<` is at `tag_start`; handles the self-closing shape (a `/` as
last non-space character before the `>`) without scanning. -/
def find_closing_tag (s : List Char) (tag : String) (tag_start : Nat) :
    Option (Nat × Nat × Nat) :=
  match find_tag_end s tag_start with
  | none => none
  | some open_end =>
    let self_closing :=
      (((s.take open_end).drop tag_start).reverse.dropWhile isSpaceC).head? = some '/'
    if self_closing then some (open_end, open_end + 1, open_end)
    else
      match fctLoop s tag (s.length + 1) (open_end + 1) 1 with
      | none => none
      | some lt => some (lt, open_end + 1, lt)

/-- Inner `while (ipos < inner.size())` loop of `build_node_from_string`
(lines 280-311), parameterised by the child-building function.  It collects
the ordered children and the appended text runs (each already trimmed,
non-empty, and unescaped); joining the runs with single spaces reproduces the
C++ incremental `inner_text` accumulation.  Each iteration advances `ipos`,
so the `inner.length + 1` fuel supplied by `buildStep` never runs out. -/
def loopGo (child : List Char → Nat → Option (XmlNode × Nat)) (s : List Char)
    (inner : List Char) (istart : Nat) :
    Nat → Nat → List XmlNode → List String → List XmlNode × List String
  | 0, _, children, segs => (children, segs)
  | fuel + 1, ipos, children, segs =>
    let ipos1 := ipos + ((inner.drop ipos).takeWhile isSpaceC).length
    if ipos1 ≥ inner.length then (children, segs)
    else if listStartsWith "<!--".toList (inner.drop ipos1) then
      match findSubFrom inner "-->".toList (ipos1 + 4) with
      | none => (children, segs)
      | some q => loopGo child s inner istart fuel (q + 3) children segs
    else if inner[ipos1]? ≠ some '<' then
      let nl := (findCharFrom inner '<' ipos1).getD inner.length
      let seg := trimList ((inner.take nl).drop ipos1)
      let segs' := if seg = [] then segs else segs ++ [String.mk (unescapeList seg)]
      loopGo child s inner istart fuel nl children segs'
    else
      match child s (istart + ipos1) with
      | none => loopGo child s inner istart fuel (ipos1 + 1) children segs
      | some (c, newpos) =>
        loopGo child s inner istart fuel (newpos - istart) (children ++ [c]) segs

/-- One level of `build_node_from_string`, with `child` building nested
elements: read the opening tag, fall back to a text-only leaf when no closing
tag is found, return immediately on an empty inner span, otherwise run the
inner loop over the inner span. -/
def buildStep (child : List Char → Nat → Option (XmlNode × Nat)) (s : List Char)
    (pos : Nat) : Option (XmlNode × Nat) :=
  match read_opening_tag s pos with
  | none => none
  | some (tag, attr_blob, tag_end) =>
    let attrs := parse_attributes_blob attr_blob
    match find_closing_tag s tag pos with
    | none =>
      let nextlt := (findCharFrom s '<' (tag_end + 1)).getD s.length
      some (.mk tag
        (trimStr (String.mk (unescapeList ((s.take nextlt).drop (tag_end + 1))))) attrs [],
        nextlt)
    | some (close_pos, inner_start, inner_end) =>
      if inner_start ≥ inner_end then
        some (.mk tag "" attrs [],
          match find_tag_end s close_pos with
          | none => close_pos
          | some gt => gt + 1)
      else
        let inner := (s.take inner_end).drop inner_start
        let res := loopGo child s inner inner_start (inner.length + 1) 0 [] []
        some (.mk tag (trimStr (String.intercalate " " res.2)) attrs res.1,
          match find_tag_end s close_pos with
          | none => close_pos
          | some gt => gt + 1)

/-- C++ `build_node_from_string` at a given recursion depth.  Defined by explicit
structural recursion on the depth fuel so that the definition unfolds by
`rfl`; each nested `build_node_from_string` call in the C++ starts strictly
further into the buffer, so depth `s.length + 1` (used by `build_node`) is
never exhausted. -/
def buildNodeF (fuel : Nat) : List Char → Nat → Option (XmlNode × Nat) :=
  Nat.rec (fun _ _ => none) (fun _ ih => buildStep ih) fuel

/-- C++ `build_node_from_string`: build one node (and the cursor just past it)
starting at an opening `<`. -/
def build_node (s : List Char) (pos : Nat) : Option (XmlNode × Nat) :=
  buildNodeF (s.length + 1) s pos

/-! ### Specification-side definitions used to state the claims -/

/-- Strict lexicographic order on (major, minor, patch) triples. -/
def lexLt (a b : Nat × Nat × Nat) : Prop :=
  a.1 < b.1 ∨ (a.1 = b.1 ∧ (a.2.1 < b.2.1 ∨ (a.2.1 = b.2.1 ∧ a.2.2 < b.2.2)))

instance (a b : Nat × Nat × Nat) : Decidable (lexLt a b) := by
  unfold lexLt
  infer_instance

/-- The structural-completeness contract, stated from the spec: root tag
`Material`, a `Metadata` container with `Id`, `Name`, `Version` children, a
`Category` container with `Property` and `Model` children. -/
def structOK (root : XmlNode) : Prop :=
  root.name = "Material"
  ∧ (∃ meta, root.find_child "Metadata" = some meta
      ∧ (∃ x, meta.find_child "Id" = some x)
      ∧ (∃ x, meta.find_child "Name" = some x)
      ∧ (∃ x, meta.find_child "Version" = some x))
  ∧ (∃ cat, root.find_child "Category" = some cat
      ∧ (∃ x, cat.find_child "Property" = some x)
      ∧ (∃ x, cat.find_child "Model" = some x))

/-- One step of the quote-tracking state of the Boundary Scanner: the state is
the opening quote character while inside a quoted span. -/
def qstep : Option Char → Char → Option Char
  | none, c => if c = '"' ∨ c = '\'' then some c else none
  | some q, c => if c = q then none else some q

/-- Whether position `i` lies inside a single- or double-quoted span of the
scan that starts at position `pos`. -/
def quoteState (s : List Char) (pos i : Nat) : Bool :=
  (((s.take i).drop pos).foldl qstep none).isSome

/-- Modelled from the claim's words only (for comparison against the code):
collapse every maximal run of whitespace to a single space. -/
def collapseWs : List Char → List Char
  | [] => []
  | [c] => [c]
  | c :: d :: rest =>
    if isSpaceC c ∧ isSpaceC d then collapseWs (d :: rest)
    else (if isSpaceC c then ' ' else c) :: collapseWs (d :: rest)

/-- Function `collapseWs` on strings. -/
def collapseWsStr (s : String) : String := String.mk (collapseWs s.toList)

/-- Numeric value the parser assigns to the `i`-th dotted segment: its decimal
value, with a missing (or empty) segment counting as zero. -/
def segVal (segs : List (List Char)) (i : Nat) : Nat :=
  ((segs[i]?).map natOfDigits).getD 0

/-- Run-extraction projection of the Tree Builder's inner loop (lines 280-311
of materials_parser.hpp): it scans the inner span with exactly the cursor
moves of `loopGo` — skipping whitespace, comments and nested elements — and
collects the trimmed non-element character runs that the loop turns into
text, without assembling the text itself.  This names the element's actual
non-element character runs so the text-assembly claim can be stated as an
equation. -/
def textRunsGo (child : List Char → Nat → Option (XmlNode × Nat)) (s : List Char)
    (inner : List Char) (istart : Nat) : Nat → Nat → List (List Char)
  | 0, _ => []
  | fuel + 1, ipos =>
    let ipos1 := ipos + ((inner.drop ipos).takeWhile isSpaceC).length
    if ipos1 ≥ inner.length then []
    else if listStartsWith "<!--".toList (inner.drop ipos1) then
      match findSubFrom inner "-->".toList (ipos1 + 4) with
      | none => []
      | some q => textRunsGo child s inner istart fuel (q + 3)
    else if inner[ipos1]? ≠ some '<' then
      let nl := (findCharFrom inner '<' ipos1).getD inner.length
      let seg := trimList ((inner.take nl).drop ipos1)
      if seg = [] then textRunsGo child s inner istart fuel nl
      else seg :: textRunsGo child s inner istart fuel nl
    else
      match child s (istart + ipos1) with
      | none => textRunsGo child s inner istart fuel (ipos1 + 1)
      | some (_, newpos) => textRunsGo child s inner istart fuel (newpos - istart)

/-- The non-element character runs of the element whose inner span is
`[istart, iend)` of `s`, scanned exactly as `buildStep` runs its inner loop. -/
def elementTextRuns (s : List Char) (istart iend : Nat) : List (List Char) :=
  textRunsGo (buildNodeF s.length) s ((s.take iend).drop istart) istart
    (((s.take iend).drop istart).length + 1) 0

mutual

/-- Erase every element value (inner text and attributes) of a tree, keeping
names and the child structure. -/
def eraseValues : XmlNode → XmlNode
  | .mk n _ _ cs => .mk n "" [] (eraseValuesList cs)

def eraseValuesList : List XmlNode → List XmlNode
  | [] => []
  | c :: r => eraseValues c :: eraseValuesList r

end

/-! ### Concrete documents used as test inputs -/

/-- A well-formed metadata container: `FNV1a("FOO") = 0xECCD95F7`. -/
def demoMeta : XmlNode :=
  .mk "Metadata" "" []
    [.mk "Id" "FOO" [] [], .mk "Name" "Foo" [] [], .mk "Version" "1.0.0-ECCD95F7" [] []]

/-- A fully well-formed document. -/
def demoRoot : XmlNode :=
  .mk "Material" "" []
    [demoMeta, .mk "Category" "" [] [.mk "Property" "" [] [], .mk "Model" "" [] []]]

/-- A document whose version field has no `-` separator. -/
def noDashRoot : XmlNode :=
  .mk "Material" "" []
    [.mk "Metadata" "" [] [.mk "Id" "FOO" [] [], .mk "Version" "1.0.0" [] []]]

/-- Version field with a fourth numeric segment: `FNV1a("M1") = 0x13DF878B`. -/
def fourSegRoot : XmlNode :=
  .mk "Material" "" []
    [.mk "Metadata" "" [] [.mk "Id" "M1" [] [], .mk "Version" "1.0.0.7-13DF878B" [] []]]

/-- Same document with the plain three-segment version. -/
def threeSegRoot : XmlNode :=
  .mk "Material" "" []
    [.mk "Metadata" "" [] [.mk "Id" "M1" [] [], .mk "Version" "1.0.0-13DF878B" [] []]]

/-! ### Helper lemmas: semantic versions -/

theorem semver_compare_neg_iff (a b : Nat × Nat × Nat) :
    semver_compare a b < 0 ↔ lexLt a b := by
  obtain ⟨a1, a2, a3⟩ := a
  obtain ⟨b1, b2, b3⟩ := b
  simp only [semver_compare, lexLt]
  split_ifs <;> simp_all <;> omega

theorem semver_compare_pos_iff (a b : Nat × Nat × Nat) :
    0 < semver_compare a b ↔ lexLt b a := by
  obtain ⟨a1, a2, a3⟩ := a
  obtain ⟨b1, b2, b3⟩ := b
  simp only [semver_compare, lexLt]
  split_ifs <;> simp_all <;> omega

theorem semver_compare_eq_iff (a b : Nat × Nat × Nat) :
    semver_compare a b = 0 ↔ a = b := by
  obtain ⟨a1, a2, a3⟩ := a
  obtain ⟨b1, b2, b3⟩ := b
  simp only [semver_compare, lexLt, Prod.mk.injEq]
  split_ifs <;> simp_all <;> omega

theorem parseAll_getElem? :
    ∀ (segs : List (List Char)) (parts : List Nat), parseAll segs = some parts →
      ∀ i : Nat, parts[i]? = (segs[i]?).bind parseSegment := by
  intro segs
  induction segs with
  | nil =>
    intro parts h i
    simp only [parseAll, Option.some.injEq] at h
    subst h
    simp
  | cons seg rest ih =>
    intro parts h i
    simp only [parseAll] at h
    cases hps : parseSegment seg with
    | none => rw [hps] at h; simp at h
    | some v =>
      rw [hps] at h
      cases hpr : parseAll rest with
      | none => rw [hpr] at h; simp at h
      | some vs =>
        rw [hpr] at h
        simp only [Option.some.injEq] at h
        subst h
        cases i with
        | zero => simp [hps]
        | succ j => simpa using ih vs hpr j

theorem parseAll_eq_none_of_mem (segs : List (List Char)) (seg : List Char)
    (hm : seg ∈ segs) (hp : parseSegment seg = none) : parseAll segs = none := by
  induction segs with
  | nil => cases hm
  | cons a rest ih =>
    rcases List.mem_cons.mp hm with h | h
    · subst h; simp [parseAll, hp]
    · simp only [parseAll]
      rw [ih h]
      cases parseSegment a <;> rfl

theorem parseSegment_some (seg : List Char) (v : Nat)
    (h : parseSegment seg = some v) : v = natOfDigits seg := by
  simp only [parseSegment] at h
  split_ifs at h <;> simp_all [natOfDigits]

theorem parse_semver_spec (s : String) (t : Nat × Nat × Nat)
    (h : parse_semver s = some t) :
    t = (segVal (getlineSplit (trimList s.toList)) 0,
         segVal (getlineSplit (trimList s.toList)) 1,
         segVal (getlineSplit (trimList s.toList)) 2) := by
  simp only [parse_semver] at h
  by_cases ht : trimList s.toList = []
  · rw [if_pos ht] at h; cases h
  · rw [if_neg ht] at h
    cases hp : parseAll (getlineSplit (trimList s.toList)) with
    | none => rw [hp] at h; cases h
    | some parts =>
      rw [hp] at h
      simp only [Option.some.injEq] at h
      have key : ∀ i : Nat, partAt parts i = segVal (getlineSplit (trimList s.toList)) i := by
        intro i
        have hg := parseAll_getElem? _ _ hp i
        cases hsi : (getlineSplit (trimList s.toList))[i]? with
        | none =>
          rw [hsi] at hg
          simp only [Option.bind] at hg
          simp only [partAt, segVal]
          rw [hsi, hg]
          rfl
        | some seg =>
          rw [hsi] at hg
          simp only [Option.bind] at hg
          cases hps : parseSegment seg with
          | none =>
            have : parseAll (getlineSplit (trimList s.toList)) = none :=
              parseAll_eq_none_of_mem _ seg (List.getElem?_mem hsi) hps
            rw [this] at hp
            cases hp
          | some v =>
            rw [hps] at hg
            simp only [partAt, segVal]
            rw [hsi, hg, parseSegment_some seg v hps]
            rfl
      rw [← h, key 0, key 1, key 2]

/-! ### Helper lemmas: splitting the version field at the last dash -/

theorem splitAtLastDash_eq_none_iff (l : List Char) :
    splitAtLastDash l = none ↔ '-' ∉ l := by
  induction l with
  | nil => simp [splitAtLastDash]
  | cons c rest ih =>
    simp only [splitAtLastDash]
    cases h : splitAtLastDash rest with
    | some p =>
      have : '-' ∈ rest := by
        by_contra hn
        rw [ih.mpr hn] at h
        cases h
      simp [this]
    | none =>
      have hr : '-' ∉ rest := ih.mp h
      by_cases hc : c = '-' <;> simp [hc, hr, eq_comm]

theorem splitAtLastDash_some_spec :
    ∀ (l a b : List Char), splitAtLastDash l = some (a, b) →
      l = a ++ '-' :: b ∧ '-' ∉ b := by
  intro l
  induction l with
  | nil => intro a b h; cases h
  | cons c rest ih =>
    intro a b h
    simp only [splitAtLastDash] at h
    cases hr : splitAtLastDash rest with
    | some p =>
      obtain ⟨p1, p2⟩ := p
      rw [hr] at h
      simp only [Option.some.injEq, Prod.mk.injEq] at h
      obtain ⟨ha, hb⟩ := h
      obtain ⟨hl, hnb⟩ := ih p1 p2 hr
      subst ha
      subst hb
      exact ⟨by rw [hl]; rfl, hnb⟩
    | none =>
      rw [hr] at h
      split_ifs at h with hc
      simp only [Option.some.injEq, Prod.mk.injEq] at h
      obtain ⟨ha, hb⟩ := h
      subst ha
      subst hb
      subst hc
      exact ⟨rfl, (splitAtLastDash_eq_none_iff rest).mp hr⟩

/-! ### Helper lemma: threading the Integrity Validator to its checksum test -/

theorem validate_extracted (root : XmlNode) (minstr simstr : String)
    (meta idN verN : XmlNode) (vl cl : List Char)
    (hm : root.find_child "Metadata" = some meta)
    (hid : meta.find_child "Id" = some idN)
    (hv : meta.find_child "Version" = some verN)
    (hidne : idN.inner_text ≠ "")
    (hvne : verN.inner_text ≠ "")
    (hsplit : splitAtLastDash verN.inner_text.toList = some (vl, cl))
    (hlen : cl.length = 8)
    (hhex : cl.all isXdigit = true) :
    validate_version_checksum_and_range root minstr simstr =
      if strUpper (String.mk cl) = strUpper (to_hex8 (fnv1a idN.inner_text)) then
        check_version_range (String.mk vl) minstr simstr
      else
        .error ("Checksum mismatch: expected " ++ to_hex8 (fnv1a idN.inner_text)
          ++ " for Id='" ++ idN.inner_text ++ "' but Version has " ++ String.mk cl) := by
  simp only [validate_version_checksum_and_range, hm, hid, hv, hsplit, hidne, hvne,
    hlen, hhex, if_false, ite_not]
  simp only [if_true]

/-! ### Helper lemmas: FNV-1a and hexadecimal rendering -/

theorem toList_mk (l : List Char) : (String.mk l).toList = l := rfl

theorem fnv1a_lt (s : String) : fnv1a s < 4294967296 := by
  have key : ∀ (l : List Nat) (h : Nat), h < 4294967296 →
      l.foldl (fun h b => ((h ^^^ b) * 16777619) % 4294967296) h < 4294967296 := by
    intro l
    induction l with
    | nil => intro h hh; simpa using hh
    | cons b rest ih =>
      intro h hh
      simp only [List.foldl_cons]
      exact ih _ (Nat.mod_lt _ (by norm_num))
  exact key _ _ (by norm_num)

theorem hexDigitU_spec :
    ∀ n : Fin 16, hexValU (hexDigitU n.val) = n.val ∧ isUpperHexDigit (hexDigitU n.val) = true := by
  decide

theorem hexStep (v k : Nat) : v / 16 ^ (k + 1) * 16 + v / 16 ^ k % 16 = v / 16 ^ k := by
  have h : v / 16 ^ (k + 1) = v / 16 ^ k / 16 := by
    rw [pow_succ, Nat.div_div_eq_div_mul]
  rw [h]
  omega

theorem to_hex8_props (v : Nat) (hv : v < 4294967296) :
    (to_hex8 v).length = 8 ∧ (to_hex8 v).toList.all isUpperHexDigit = true
      ∧ hexToNat (to_hex8 v) = v := by
  have h16 : ∀ n : Nat, n % 16 < 16 := fun n => Nat.mod_lt _ (by norm_num)
  have keyV : ∀ m, m < 16 → hexValU (hexDigitU m) = m := fun m hm => (hexDigitU_spec ⟨m, hm⟩).1
  have keyU : ∀ m, m < 16 → isUpperHexDigit (hexDigitU m) = true :=
    fun m hm => (hexDigitU_spec ⟨m, hm⟩).2
  refine ⟨rfl, ?_, ?_⟩
  · rw [List.all_eq_true]
    intro x hx
    simp only [to_hex8, toList_mk, List.mem_cons, List.not_mem_nil, or_false] at hx
    rcases hx with rfl | rfl | rfl | rfl | rfl | rfl | rfl | rfl <;> exact keyU _ (h16 _)
  · simp only [hexToNat, to_hex8, toList_mk, List.foldl_cons, List.foldl_nil]
    rw [keyV _ (h16 _), keyV _ (h16 _), keyV _ (h16 _), keyV _ (h16 _), keyV _ (h16 _),
      keyV _ (h16 _), keyV _ (h16 _), keyV _ (h16 _)]
    norm_num
    omega

/-! ### Helper lemmas: the Boundary Scanner -/

theorem fteGo_some :
    ∀ (l : List Char) (st : Option Char) (i j : Nat), fteGo l st i = some j →
      ∃ k, j = i + k ∧ l[k]? = some '>' ∧ (l.take k).foldl qstep st = none
        ∧ ∀ m, m < k → l[m]? = some '>' → ((l.take m).foldl qstep st).isSome = true := by
  intro l
  induction l with
  | nil => intro st i j h; cases h
  | cons c rest ih =>
    intro st i j h
    match st with
    | none =>
      simp only [fteGo] at h
      split_ifs at h with hq hgt
      · obtain ⟨k, hk, hg, hst, hmin⟩ := ih (some c) (i + 1) j h
        refine ⟨k + 1, by omega, by simpa using hg, ?_, ?_⟩
        · simpa [List.take_succ_cons, List.foldl_cons, qstep, hq] using hst
        · intro m hm hgm
          cases m with
          | zero =>
            simp at hgm
            rcases hq with hq | hq <;> rw [hgm] at hq <;> cases hq
          | succ m' =>
            simpa [List.take_succ_cons, List.foldl_cons, qstep, hq] using
              hmin m' (by omega) (by simpa using hgm)
      · cases h
        exact ⟨0, by omega, by simpa using hgt, rfl, by omega⟩
      · obtain ⟨k, hk, hg, hst, hmin⟩ := ih none (i + 1) j h
        refine ⟨k + 1, by omega, by simpa using hg, ?_, ?_⟩
        · simpa [List.take_succ_cons, List.foldl_cons, qstep, hq] using hst
        · intro m hm hgm
          cases m with
          | zero =>
            simp at hgm
            exact absurd hgm hgt
          | succ m' =>
            simpa [List.take_succ_cons, List.foldl_cons, qstep, hq] using
              hmin m' (by omega) (by simpa using hgm)
    | some q =>
      simp only [fteGo] at h
      split_ifs at h with hq
      · obtain ⟨k, hk, hg, hst, hmin⟩ := ih none (i + 1) j h
        refine ⟨k + 1, by omega, by simpa using hg, ?_, ?_⟩
        · simpa [List.take_succ_cons, List.foldl_cons, qstep, hq] using hst
        · intro m hm hgm
          cases m with
          | zero => simp
          | succ m' =>
            simpa [List.take_succ_cons, List.foldl_cons, qstep, hq] using
              hmin m' (by omega) (by simpa using hgm)
      · obtain ⟨k, hk, hg, hst, hmin⟩ := ih (some q) (i + 1) j h
        refine ⟨k + 1, by omega, by simpa using hg, ?_, ?_⟩
        · simpa [List.take_succ_cons, List.foldl_cons, qstep, hq] using hst
        · intro m hm hgm
          cases m with
          | zero => simp
          | succ m' =>
            simpa [List.take_succ_cons, List.foldl_cons, qstep, hq] using
              hmin m' (by omega) (by simpa using hgm)

theorem fteGo_none :
    ∀ (l : List Char) (st : Option Char) (i : Nat), fteGo l st i = none →
      ∀ m : Nat, l[m]? = some '>' → ((l.take m).foldl qstep st).isSome = true := by
  intro l
  induction l with
  | nil => intro st i _ m hm; simp at hm
  | cons c rest ih =>
    intro st i h m hm
    match st with
    | none =>
      simp only [fteGo] at h
      split_ifs at h with hq hgt
      · cases m with
        | zero =>
          simp at hm
          rcases hq with hq | hq <;> rw [hm] at hq <;> cases hq
        | succ m' =>
          simpa [List.take_succ_cons, List.foldl_cons, qstep, hq] using
            ih (some c) (i + 1) h m' (by simpa using hm)
      · cases m with
        | zero =>
          simp at hm
          exact absurd hm hgt
        | succ m' =>
          simpa [List.take_succ_cons, List.foldl_cons, qstep, hq] using
            ih none (i + 1) h m' (by simpa using hm)
    | some q =>
      simp only [fteGo] at h
      split_ifs at h with hq
      · cases m with
        | zero => simp
        | succ m' =>
          simpa [List.take_succ_cons, List.foldl_cons, qstep, hq] using
            ih none (i + 1) h m' (by simpa using hm)
      · cases m with
        | zero => simp
        | succ m' =>
          simpa [List.take_succ_cons, List.foldl_cons, qstep, hq] using
            ih (some q) (i + 1) h m' (by simpa using hm)

theorem quoteState_eq (s : List Char) (pos k : Nat) :
    quoteState s pos (pos + k) = (((s.drop pos).take k).foldl qstep none).isSome := by
  unfold quoteState
  rw [List.take_drop]

theorem find_tag_end_some_spec (s : List Char) (pos j : Nat)
    (h : find_tag_end s pos = some j) :
    pos ≤ j ∧ s[j]? = some '>' ∧ quoteState s pos j = false
      ∧ ∀ m, pos ≤ m → m < j → s[m]? = some '>' → quoteState s pos m = true := by
  obtain ⟨k, hk, hg, hst, hmin⟩ := fteGo_some (s.drop pos) none pos j h
  subst hk
  refine ⟨by omega, ?_, ?_, ?_⟩
  · rw [← List.getElem?_drop]; exact hg
  · rw [quoteState_eq, hst]; rfl
  · intro m hpm hmj hgm
    have hm' : m = pos + (m - pos) := by omega
    rw [hm', quoteState_eq]
    exact hmin (m - pos) (by omega) (by rw [List.getElem?_drop]; rwa [← hm'])

theorem find_tag_end_none_spec (s : List Char) (pos : Nat)
    (h : find_tag_end s pos = none) :
    ∀ m, pos ≤ m → s[m]? = some '>' → quoteState s pos m = true := by
  intro m hpm hgm
  have hm' : m = pos + (m - pos) := by omega
  rw [hm', quoteState_eq]
  exact fteGo_none (s.drop pos) none pos h (m - pos) (by rw [List.getElem?_drop]; rwa [← hm'])

theorem find_tag_end_at_gt (s : List Char) (gt : Nat) (h : s[gt]? = some '>') :
    find_tag_end s gt = some gt := by
  have hlt : gt < s.length := (List.getElem?_eq_some_iff.mp h).1
  unfold find_tag_end
  rw [List.drop_eq_getElem_cons hlt]
  have hc : s[gt] = '>' := by
    have := List.getElem?_eq_some_iff.mp h
    exact this.2
  rw [hc]
  simp [fteGo]

/-! ### Helper lemmas: trimming -/

theorem dropWhile_head_not (p : Char → Bool) :
    ∀ (l : List Char) (c : Char) (t : List Char), l.dropWhile p = c :: t → p c = false := by
  intro l
  induction l with
  | nil => intro c t h; cases h
  | cons a r ih =>
    intro c t h
    by_cases hp : p a
    · rw [List.dropWhile_cons_of_pos hp] at h
      exact ih c t h
    · rw [List.dropWhile_cons_of_neg hp] at h
      cases h
      exact Bool.not_eq_true _ ▸ (by simpa using hp)

theorem dropWhile_eq_self_of_head (p : Char → Bool) (l : List Char)
    (h : ∀ c, l.head? = some c → p c = false) : l.dropWhile p = l := by
  cases l with
  | nil => rfl
  | cons a r => rw [List.dropWhile_cons_of_neg (by simp [h a rfl])]

theorem getLast?_dropWhile (p : Char → Bool) :
    ∀ (l : List Char), l.dropWhile p ≠ [] → (l.dropWhile p).getLast? = l.getLast? := by
  intro l
  induction l with
  | nil => intro h; simp at h
  | cons a r ih =>
    intro h
    by_cases hp : p a
    · rw [List.dropWhile_cons_of_pos hp] at h ⊢
      cases r with
      | nil => simp at h
      | cons b r' => rw [ih h, List.getLast?_cons_cons]
    · rw [List.dropWhile_cons_of_neg hp]

theorem trimList_eq_self {l : List Char}
    (h1 : ∀ c, l.head? = some c → isSpaceC c = false)
    (h2 : ∀ c, l.getLast? = some c → isSpaceC c = false) : trimList l = l := by
  unfold trimList
  rw [dropWhile_eq_self_of_head _ _ h1]
  rw [dropWhile_eq_self_of_head _ _ (fun c hc => h2 c (by rwa [List.head?_reverse] at hc))]
  rw [List.reverse_reverse]

theorem trimList_head (l : List Char) :
    ∀ c, (trimList l).head? = some c → isSpaceC c = false := by
  intro c hc
  unfold trimList at hc
  rw [List.head?_reverse] at hc
  have hne : (l.dropWhile isSpaceC).reverse.dropWhile isSpaceC ≠ [] := by
    intro he
    rw [he] at hc
    cases hc
  rw [getLast?_dropWhile _ _ hne, List.getLast?_reverse] at hc
  cases hd : l.dropWhile isSpaceC with
  | nil => rw [hd] at hc; cases hc
  | cons x t =>
    rw [hd] at hc
    simp only [List.head?_cons, Option.some.injEq] at hc
    subst hc
    exact dropWhile_head_not isSpaceC l x t hd

theorem trimList_getLast (l : List Char) :
    ∀ c, (trimList l).getLast? = some c → isSpaceC c = false := by
  intro c hc
  unfold trimList at hc
  rw [List.getLast?_reverse] at hc
  cases hd : (l.dropWhile isSpaceC).reverse.dropWhile isSpaceC with
  | nil => rw [hd] at hc; cases hc
  | cons x t =>
    rw [hd] at hc
    simp only [List.head?_cons, Option.some.injEq] at hc
    subst hc
    exact dropWhile_head_not isSpaceC _ x t hd

theorem trimList_idem (l : List Char) : trimList (trimList l) = trimList l :=
  trimList_eq_self (trimList_head l) (trimList_getLast l)

/-! ### Helper lemmas: the Tree Builder -/

theorem read_opening_tag_spec (s : List Char) (pos : Nat) (tag : String)
    (blob : List Char) (gt : Nat)
    (h : read_opening_tag s pos = some (tag, blob, gt)) :
    s[pos]? = some '<' ∧ find_tag_end s pos = some gt := by
  simp only [read_opening_tag] at h
  split_ifs at h with h1
  push_neg at h1
  cases hf : find_tag_end s pos with
  | none => rw [hf] at h; cases h
  | some g =>
    simp only [hf] at h
    split_ifs at h with h2 h3 h4 <;>
      simp only [Option.some.injEq, Prod.mk.injEq] at h <;>
      exact ⟨h1, by rw [h.2.2]⟩

theorem textRunsGo_trimmed (child : List Char → Nat → Option (XmlNode × Nat))
    (s inner : List Char) (istart : Nat) :
    ∀ (fuel ipos : Nat) (r : List Char),
      r ∈ textRunsGo child s inner istart fuel ipos → r ≠ [] ∧ trimList r = r := by
  intro fuel
  induction fuel with
  | zero => intro ipos r hr; simp [textRunsGo] at hr
  | succ fuel ih =>
    intro ipos r hr
    simp only [textRunsGo] at hr
    split at hr
    · simp at hr
    · split at hr
      · split at hr
        · simp at hr
        · exact ih _ r hr
      · split at hr
        · split at hr
          · exact ih _ r hr
          · rcases List.mem_cons.mp hr with rfl | hmem
            · exact ⟨by assumption, trimList_idem _⟩
            · exact ih _ r hmem
        · split at hr
          · exact ih _ r hr
          · exact ih _ r hr

theorem loopGo_segs_eq (child : List Char → Nat → Option (XmlNode × Nat))
    (s inner : List Char) (istart : Nat) :
    ∀ (fuel ipos : Nat) (children : List XmlNode) (segs : List String),
      (loopGo child s inner istart fuel ipos children segs).2
        = segs ++ (textRunsGo child s inner istart fuel ipos).map
            (fun r => String.mk (unescapeList r)) := by
  intro fuel
  induction fuel with
  | zero => intro ipos children segs; simp [loopGo, textRunsGo]
  | succ fuel ih =>
    intro ipos children segs
    simp only [loopGo, textRunsGo]
    split
    · simp
    · split
      · split
        · simp
        · rw [ih]
      · split
        · rw [ih]
          split <;> simp
        · split
          · rw [ih]
          · rw [ih]

/-! ### Helper lemmas: erasing element values -/

theorem eraseValues_name (x : XmlNode) : (eraseValues x).name = x.name := by
  cases x
  simp [eraseValues, XmlNode.name]

theorem find?_eraseValuesList (cs : List XmlNode) (tag : String) :
    (eraseValuesList cs).find? (fun c => c.name == tag)
      = Option.map eraseValues (cs.find? (fun c => c.name == tag)) := by
  induction cs with
  | nil => simp [eraseValuesList]
  | cons c r ih =>
    simp only [eraseValuesList, List.find?_cons]
    by_cases hc : c.name == tag
    · rw [eraseValues_name]
      simp [hc]
    · rw [eraseValues_name]
      simp only [hc]
      simpa using ih

theorem find_child_eraseValues (x : XmlNode) (tag : String) :
    (eraseValues x).find_child tag = Option.map eraseValues (x.find_child tag) := by
  cases x
  simp only [XmlNode.find_child, eraseValues, XmlNode.children]
  exact find?_eraseValuesList _ tag

/-! ### The claims -/

/-- Claim C1: for every identifier, the Integrity Validator's expected
checksum is the 32-bit FNV-1a hash of the identifier rendered as eight
uppercase hexadecimal digits (the rendering has length 8, uses only uppercase
hex digits, and denotes the hash value); the embedded checksum is compared to
it case-insensitively, validation proceeds (to the version-range step) iff
they match, and on mismatch the rejection message reports both the expected
and the found value. -/
theorem claim_C1 (root : XmlNode) (minstr simstr : String)
    (meta idN verN : XmlNode) (vl cl : List Char)
    (hm : root.find_child "Metadata" = some meta)
    (hid : meta.find_child "Id" = some idN)
    (hv : meta.find_child "Version" = some verN)
    (hidne : idN.inner_text ≠ "")
    (hvne : verN.inner_text ≠ "")
    (hsplit : splitAtLastDash verN.inner_text.toList = some (vl, cl))
    (hlen : cl.length = 8)
    (hhex : cl.all isXdigit = true) :
    ((to_hex8 (fnv1a idN.inner_text)).length = 8
      ∧ (to_hex8 (fnv1a idN.inner_text)).toList.all isUpperHexDigit = true
      ∧ hexToNat (to_hex8 (fnv1a idN.inner_text)) = fnv1a idN.inner_text)
    ∧ (strUpper (String.mk cl) = strUpper (to_hex8 (fnv1a idN.inner_text)) →
        validate_version_checksum_and_range root minstr simstr
          = check_version_range (String.mk vl) minstr simstr)
    ∧ (strUpper (String.mk cl) ≠ strUpper (to_hex8 (fnv1a idN.inner_text)) →
        validate_version_checksum_and_range root minstr simstr
          = .error ("Checksum mismatch: expected " ++ to_hex8 (fnv1a idN.inner_text)
              ++ " for Id='" ++ idN.inner_text ++ "' but Version has " ++ String.mk cl)) := by
  refine ⟨to_hex8_props _ (fnv1a_lt _), ?_, ?_⟩
  · intro hck
    rw [validate_extracted root minstr simstr meta idN verN vl cl hm hid hv hidne hvne
      hsplit hlen hhex, if_pos hck]
  · intro hck
    rw [validate_extracted root minstr simstr meta idN verN vl cl hm hid hv hidne hvne
      hsplit hlen hhex, if_neg hck]

theorem claim_C1_witness :
    validate_version_checksum_and_range demoRoot "0.0.0" "1.0.0"
      = check_version_range "1.0.0" "0.0.0" "1.0.0" := by
  have h := claim_C1 demoRoot "0.0.0" "1.0.0" demoMeta (.mk "Id" "FOO" [] [])
    (.mk "Version" "1.0.0-ECCD95F7" [] []) "1.0.0".toList "ECCD95F7".toList
    rfl rfl rfl (by decide) (by decide) rfl rfl rfl
  exact h.2.1 rfl

/-- Claim C3: once a document's version, the minimum-supported bound and the
current-consumer bound parse as (major, minor, patch) triples, the comparison
is lexicographic (the code's three-way compare agrees with strict
lexicographic order), the validator rejects iff the document version is below
the minimum bound (reported as too old, naming that bound) or above the
consumer bound (reported as too new, naming that bound), and on success
returns the parsed semantic-version string without the checksum suffix. -/
theorem claim_C3 :
    (∀ a b : Nat × Nat × Nat,
      (semver_compare a b < 0 ↔ lexLt a b) ∧ (0 < semver_compare a b ↔ lexLt b a)
        ∧ (semver_compare a b = 0 ↔ a = b))
    ∧ ∀ (root : XmlNode) (minstr simstr : String) (meta idN verN : XmlNode)
        (vl cl : List Char) (xmlv minv simv : Nat × Nat × Nat),
        root.find_child "Metadata" = some meta →
        meta.find_child "Id" = some idN →
        meta.find_child "Version" = some verN →
        idN.inner_text ≠ "" →
        verN.inner_text ≠ "" →
        splitAtLastDash verN.inner_text.toList = some (vl, cl) →
        cl.length = 8 →
        cl.all isXdigit = true →
        strUpper (String.mk cl) = strUpper (to_hex8 (fnv1a idN.inner_text)) →
        parse_semver (String.mk vl) = some xmlv →
        parse_semver minstr = some minv →
        parse_semver simstr = some simv →
        (lexLt xmlv minv →
          validate_version_checksum_and_range root minstr simstr
            = .error ("Material XML version '" ++ String.mk vl
                ++ "' is too old (minimum supported is " ++ minstr ++ ")"))
        ∧ (¬ lexLt xmlv minv → lexLt simv xmlv →
          validate_version_checksum_and_range root minstr simstr
            = .error ("Material XML version '" ++ String.mk vl
                ++ "' is newer than simulator (" ++ simstr
                ++ "). Update simulator or use an older XML."))
        ∧ (validate_version_checksum_and_range root minstr simstr = .ok (String.mk vl)
            ↔ ¬ lexLt xmlv minv ∧ ¬ lexLt simv xmlv) := by
  constructor
  · intro a b
    exact ⟨semver_compare_neg_iff a b, semver_compare_pos_iff a b, semver_compare_eq_iff a b⟩
  · intro root minstr simstr meta idN verN vl cl xmlv minv simv
      hm hid hv hidne hvne hsplit hlen hhex hck hxp hmp hsp
    rw [validate_extracted root minstr simstr meta idN verN vl cl hm hid hv hidne hvne
      hsplit hlen hhex, if_pos hck]
    unfold check_version_range
    simp only [hxp, hmp, hsp]
    refine ⟨?_, ?_, ?_⟩
    · intro hold
      rw [if_pos ((semver_compare_neg_iff xmlv minv).mpr hold)]
    · intro hnold hnew
      rw [if_neg (fun hcon => hnold ((semver_compare_neg_iff xmlv minv).mp hcon)),
        if_pos ((semver_compare_pos_iff xmlv simv).mpr hnew)]
    · constructor
      · intro hok
        by_cases h1 : lexLt xmlv minv
        · rw [if_pos ((semver_compare_neg_iff xmlv minv).mpr h1)] at hok
          cases hok
        · by_cases h2 : lexLt simv xmlv
          · rw [if_neg (fun hcon => h1 ((semver_compare_neg_iff xmlv minv).mp hcon)),
              if_pos ((semver_compare_pos_iff xmlv simv).mpr h2)] at hok
            cases hok
          · exact ⟨h1, h2⟩
      · rintro ⟨h1, h2⟩
        rw [if_neg (fun hcon => h1 ((semver_compare_neg_iff xmlv minv).mp hcon)),
          if_neg (fun hcon => h2 ((semver_compare_pos_iff xmlv simv).mp hcon))]

theorem claim_C3_witness :
    validate_version_checksum_and_range demoRoot "0.0.0" "1.0.0" = .ok "1.0.0" := by
  have h := claim_C3.2 demoRoot "0.0.0" "1.0.0" demoMeta (.mk "Id" "FOO" [] [])
    (.mk "Version" "1.0.0-ECCD95F7" [] []) "1.0.0".toList "ECCD95F7".toList
    (1, 0, 0) (0, 0, 0) (1, 0, 0)
    rfl rfl rfl (by decide) (by decide) rfl rfl rfl rfl rfl rfl rfl
  exact h.2.2.mpr ⟨by decide, by decide⟩

/-- Claim C4: the version field must have the form semver-checksum, split at
the last dash (the suffix after the split point contains no further dash);
with no dash at all the field is rejected with the malformed-format message,
uniformly in both version bounds (so before any numeric comparison); a
checksum segment of the wrong length, or one containing a non-hex character,
is rejected with the corresponding message. -/
theorem claim_C4 (root : XmlNode) (meta idN verN : XmlNode)
    (hm : root.find_child "Metadata" = some meta)
    (hid : meta.find_child "Id" = some idN)
    (hv : meta.find_child "Version" = some verN)
    (hidne : idN.inner_text ≠ "")
    (hvne : verN.inner_text ≠ "") :
    (('-' ∉ verN.inner_text.toList) → ∀ minstr simstr : String,
      validate_version_checksum_and_range root minstr simstr
        = .error "<Version> must be in format MAJOR.MINOR.PATCH-CHECKSUM (e.g. 1.0.0-10C18EDC)")
    ∧ ∀ vl cl : List Char, splitAtLastDash verN.inner_text.toList = some (vl, cl) →
        (verN.inner_text.toList = vl ++ '-' :: cl ∧ '-' ∉ cl)
        ∧ (cl.length ≠ 8 → ∀ minstr simstr : String,
            validate_version_checksum_and_range root minstr simstr
              = .error "Checksum part must have 8 hex characters")
        ∧ (cl.length = 8 → cl.all isXdigit = false → ∀ minstr simstr : String,
            validate_version_checksum_and_range root minstr simstr
              = .error "Checksum contains non-hex characters") := by
  constructor
  · intro hnd minstr simstr
    have hs : splitAtLastDash verN.inner_text.toList = none :=
      (splitAtLastDash_eq_none_iff _).mpr hnd
    simp only [validate_version_checksum_and_range, hm, hid, hv, hidne, hvne, hs,
      if_false, if_true]
  · intro vl cl hsplit
    refine ⟨splitAtLastDash_some_spec _ _ _ hsplit, ?_, ?_⟩
    · intro hlen minstr simstr
      simp only [validate_version_checksum_and_range, hm, hid, hv, hidne, hvne, hsplit,
        if_false, if_true]
      rw [if_pos hlen]
    · intro hlen hhex minstr simstr
      simp only [validate_version_checksum_and_range, hm, hid, hv, hidne, hvne, hsplit,
        hlen, hhex, if_false, if_true]
      simp

theorem claim_C4_witness :
    validate_version_checksum_and_range noDashRoot "0.0.0" "0.0.0"
      = .error "<Version> must be in format MAJOR.MINOR.PATCH-CHECKSUM (e.g. 1.0.0-10C18EDC)" :=
  (claim_C4 noDashRoot (.mk "Metadata" "" [] [.mk "Id" "FOO" [] [], .mk "Version" "1.0.0" [] []])
    (.mk "Id" "FOO" [] []) (.mk "Version" "1.0.0" [] [])
    rfl rfl rfl (by decide) (by decide)).1 (by decide) "0.0.0" "0.0.0"

/-- Claim C2: the Structural Validator accepts a document iff the root element
is named `Material`, contains a `Metadata` container with the three named
children `Id`, `Name`, `Version`, and contains a `Category` container with the
two designated named children `Property` and `Model`; each missing piece is
rejected with a message naming the missing element verbatim; and no element
values are inspected (erasing every inner text and attribute value leaves the
outcome unchanged). -/
theorem claim_C2 (root : XmlNode) :
    (has_required_structure root = .ok () ↔ structOK root)
    ∧ (∀ e, has_required_structure root = .error e →
        (root.name ≠ "Material" ∧ e = "Root element must be <Material>")
        ∨ (root.find_child "Metadata" = none ∧ e = "Missing <Metadata>")
        ∨ (∃ meta, root.find_child "Metadata" = some meta ∧ meta.find_child "Id" = none
            ∧ e = "Missing <Id> in <Metadata>")
        ∨ (∃ meta, root.find_child "Metadata" = some meta ∧ meta.find_child "Name" = none
            ∧ e = "Missing <Name> in <Metadata>")
        ∨ (∃ meta, root.find_child "Metadata" = some meta ∧ meta.find_child "Version" = none
            ∧ e = "Missing <Version> in <Metadata>")
        ∨ (root.find_child "Category" = none ∧ e = "Missing <Category>")
        ∨ (∃ cat, root.find_child "Category" = some cat ∧ cat.find_child "Property" = none
            ∧ e = "Missing <Property> inside <Category>")
        ∨ (∃ cat, root.find_child "Category" = some cat ∧ cat.find_child "Model" = none
            ∧ e = "Missing <Model>    inside <Category>"))
    ∧ has_required_structure (eraseValues root) = has_required_structure root := by
  refine ⟨⟨?_, ?_⟩, ?_, ?_⟩
  · -- acceptance implies the structural contract
    intro h
    unfold has_required_structure at h
    by_cases hname : root.name = "Material"
    · rw [if_neg (fun hc => hc hname)] at h
      cases hmeta : root.find_child "Metadata" with
      | none => simp only [hmeta] at h; cases h
      | some meta =>
        simp only [hmeta] at h
        cases hid : meta.find_child "Id" with
        | none => simp only [hid] at h; cases h
        | some idN =>
          simp only [hid] at h
          cases hnm : meta.find_child "Name" with
          | none => simp only [hnm] at h; cases h
          | some nmN =>
            simp only [hnm] at h
            cases hvr : meta.find_child "Version" with
            | none => simp only [hvr] at h; cases h
            | some vrN =>
              simp only [hvr] at h
              cases hcat : root.find_child "Category" with
              | none => simp only [hcat] at h; cases h
              | some cat =>
                simp only [hcat] at h
                cases hprop : cat.find_child "Property" with
                | none => simp only [hprop] at h; cases h
                | some pN =>
                  simp only [hprop] at h
                  cases hmod : cat.find_child "Model" with
                  | none => simp only [hmod] at h; cases h
                  | some mN =>
                    exact ⟨hname, ⟨meta, hmeta, ⟨idN, hid⟩, ⟨nmN, hnm⟩, ⟨vrN, hvr⟩⟩,
                      ⟨cat, hcat, ⟨pN, hprop⟩, ⟨mN, hmod⟩⟩⟩
    · rw [if_pos hname] at h
      cases h
  · -- the structural contract implies acceptance
    rintro ⟨hname, ⟨meta, hmeta, ⟨idN, hid⟩, ⟨nmN, hnm⟩, ⟨vrN, hvr⟩⟩,
      ⟨cat, hcat, ⟨pN, hprop⟩, ⟨mN, hmod⟩⟩⟩
    unfold has_required_structure
    rw [if_neg (fun hc => hc hname)]
    simp only [hmeta, hid, hnm, hvr, hcat, hprop, hmod]
  · -- each rejection names the missing element
    intro e he
    unfold has_required_structure at he
    by_cases hname : root.name = "Material"
    · rw [if_neg (fun hc => hc hname)] at he
      cases hmeta : root.find_child "Metadata" with
      | none =>
        simp only [hmeta] at he
        injection he with he'
        exact Or.inr (Or.inl ⟨rfl, he'.symm⟩)
      | some meta =>
        simp only [hmeta] at he
        cases hid : meta.find_child "Id" with
        | none =>
          simp only [hid] at he
          injection he with he'
          exact Or.inr (Or.inr (Or.inl ⟨meta, rfl, hid, he'.symm⟩))
        | some idN =>
          simp only [hid] at he
          cases hnm : meta.find_child "Name" with
          | none =>
            simp only [hnm] at he
            injection he with he'
            exact Or.inr (Or.inr (Or.inr (Or.inl ⟨meta, rfl, hnm, he'.symm⟩)))
          | some nmN =>
            simp only [hnm] at he
            cases hvr : meta.find_child "Version" with
            | none =>
              simp only [hvr] at he
              injection he with he'
              exact Or.inr (Or.inr (Or.inr (Or.inr (Or.inl ⟨meta, rfl, hvr, he'.symm⟩))))
            | some vrN =>
              simp only [hvr] at he
              cases hcat : root.find_child "Category" with
              | none =>
                simp only [hcat] at he
                injection he with he'
                exact Or.inr (Or.inr (Or.inr (Or.inr (Or.inr (Or.inl ⟨rfl, he'.symm⟩)))))
              | some cat =>
                simp only [hcat] at he
                cases hprop : cat.find_child "Property" with
                | none =>
                  simp only [hprop] at he
                  injection he with he'
                  exact Or.inr (Or.inr (Or.inr (Or.inr (Or.inr (Or.inr
                    (Or.inl ⟨cat, rfl, hprop, he'.symm⟩))))))
                | some pN =>
                  simp only [hprop] at he
                  cases hmod : cat.find_child "Model" with
                  | none =>
                    simp only [hmod] at he
                    injection he with he'
                    exact Or.inr (Or.inr (Or.inr (Or.inr (Or.inr (Or.inr (Or.inr
                      ⟨cat, rfl, hmod, he'.symm⟩))))))
                  | some mN =>
                    simp only [hmod] at he
                    cases he
    · rw [if_pos hname] at he
      injection he with he'
      exact Or.inl ⟨hname, he'.symm⟩
  · -- values play no role
    unfold has_required_structure
    rw [eraseValues_name]
    by_cases hname : root.name = "Material"
    · rw [if_neg (fun hc => hc hname), if_neg (fun hc => hc hname)]
      rw [find_child_eraseValues]
      cases hmeta : root.find_child "Metadata" with
      | none => rfl
      | some meta =>
        simp only [Option.map_some', find_child_eraseValues]
        cases hid : meta.find_child "Id" with
        | none => rfl
        | some idN =>
          simp only [Option.map_some', find_child_eraseValues]
          cases hnm : meta.find_child "Name" with
          | none => rfl
          | some nmN =>
            simp only [Option.map_some', find_child_eraseValues]
            cases hvr : meta.find_child "Version" with
            | none => rfl
            | some vrN =>
              simp only [Option.map_some', find_child_eraseValues]
              cases hcat : root.find_child "Category" with
              | none => rfl
              | some cat =>
                simp only [Option.map_some', find_child_eraseValues]
                cases hprop : cat.find_child "Property" with
                | none => rfl
                | some pN =>
                  simp only [Option.map_some', find_child_eraseValues]
                  cases hmod : cat.find_child "Model" with
                  | none => rfl
                  | some mN => simp only [Option.map_some']
    · rw [if_pos hname, if_pos hname]

theorem claim_C2_witness : structOK demoRoot :=
  (claim_C2 demoRoot).1.mp rfl

/-- Claim C5: `parse_semver` derives its (major, minor, patch) triple by
splitting the whitespace-trimmed input on dots, each component being the
decimal value of the corresponding segment with a missing or empty segment
counting as zero; and it fails for every input in which some segment contains
a non-digit character. -/
theorem claim_C5 :
    (∀ (s : String) (seg : List Char), seg ∈ getlineSplit (trimList s.toList) →
      (∃ ch ∈ seg, isDigitC ch = false) → parse_semver s = none)
    ∧ (∀ (s : String) (a b c : Nat), parse_semver s = some (a, b, c) →
      a = segVal (getlineSplit (trimList s.toList)) 0
      ∧ b = segVal (getlineSplit (trimList s.toList)) 1
      ∧ c = segVal (getlineSplit (trimList s.toList)) 2) := by
  constructor
  · rintro s seg hmem ⟨ch, hch, hnd⟩
    have hne : seg ≠ [] := by
      intro he
      subst he
      cases hch
    have hall : seg.all isDigitC = false := by
      by_contra hcon
      have : seg.all isDigitC = true := by
        cases hval : seg.all isDigitC with
        | true => rfl
        | false => exact absurd hval hcon
      rw [List.all_eq_true] at this
      rw [this ch hch] at hnd
      cases hnd
    have hps : parseSegment seg = none := by
      simp [parseSegment, hne, hall]
    unfold parse_semver
    by_cases ht : trimList s.toList = []
    · rw [if_pos ht]
    · rw [if_neg ht, parseAll_eq_none_of_mem _ _ hmem hps]
  · intro s a b c h
    have hspec := parse_semver_spec s (a, b, c) h
    simp only [Prod.mk.injEq] at hspec
    exact hspec


theorem claim_C5_witness :
    parse_semver "1.x" = none
    ∧ (1 = segVal (getlineSplit (trimList "1.2.3".toList)) 0
       ∧ 2 = segVal (getlineSplit (trimList "1.2.3".toList)) 1
       ∧ 3 = segVal (getlineSplit (trimList "1.2.3".toList)) 2) :=
  ⟨claim_C5.1 "1.x" ['x'] (by decide) ⟨'x', by decide, by decide⟩,
   claim_C5.2 "1.2.3" 1 2 3 rfl⟩

/-- Claim C10: only the first three dotted segments of a version string are
stored in the (major, minor, patch) triple, so two version strings whose first
three segments agree parse to equal triples; in particular a document whose
version field is `1.0.0.7` (with a correct checksum) passes the range check
against bounds `1.0.0`/`1.0.0` exactly as `1.0.0` does. -/
theorem claim_C10 :
    (∀ (s1 s2 : String) (t1 t2 : Nat × Nat × Nat),
      parse_semver s1 = some t1 → parse_semver s2 = some t2 →
      (getlineSplit (trimList s1.toList)).take 3 = (getlineSplit (trimList s2.toList)).take 3 →
      t1 = t2)
    ∧ validate_version_checksum_and_range fourSegRoot "1.0.0" "1.0.0" = .ok "1.0.0.7"
    ∧ validate_version_checksum_and_range threeSegRoot "1.0.0" "1.0.0" = .ok "1.0.0" := by
  refine ⟨?_, rfl, rfl⟩
  intro s1 s2 t1 t2 h1 h2 hseg
  rw [parse_semver_spec s1 t1 h1, parse_semver_spec s2 t2 h2]
  have key : ∀ i : Nat, i < 3 →
      segVal (getlineSplit (trimList s1.toList)) i
        = segVal (getlineSplit (trimList s2.toList)) i := by
    intro i hi
    unfold segVal
    rw [← List.getElem?_take_of_lt (l := getlineSplit (trimList s1.toList)) hi, hseg,
      List.getElem?_take_of_lt hi]
  rw [key 0 (by omega), key 1 (by omega), key 2 (by omega)]

theorem claim_C10_witness : ((1, 0, 0) : Nat × Nat × Nat) = (1, 0, 0) :=
  claim_C10.1 "1.0.0.7" "1.0.0.9" (1, 0, 0) (1, 0, 0) rfl rfl rfl

/-- Claim C7: the Boundary Scanner returns the position of the first `>` at or
after the start that does not lie inside a single- or double-quoted span
(every earlier `>` is inside quotes), and returns not-found exactly when every
`>` from the start to the end of input lies inside a quoted span. -/
theorem claim_C7 (s : List Char) (pos : Nat) :
    (∀ j, find_tag_end s pos = some j →
      pos ≤ j ∧ s[j]? = some '>' ∧ quoteState s pos j = false
        ∧ ∀ m, pos ≤ m → m < j → s[m]? = some '>' → quoteState s pos m = true)
    ∧ (find_tag_end s pos = none →
      ∀ m, pos ≤ m → s[m]? = some '>' → quoteState s pos m = true) :=
  ⟨fun j h => find_tag_end_some_spec s pos j h, fun h => find_tag_end_none_spec s pos h⟩

theorem claim_C7_witness : quoteState ("<a x='q>r'>".toList) 0 7 = true := by
  have h := (claim_C7 ("<a x='q>r'>".toList) 0).1 10 rfl
  exact h.2.2.2 7 (by omega) (by omega) rfl

/-- Claim C6: when no matching closing tag can be found for an element, the
Tree Builder still succeeds: the element degrades to a leaf with no children
whose text is the content from just past the opening tag up to the next `<`
delimiter (unescaped and trimmed), and the cursor advances to that delimiter
(end of input when there is none), so parsing of following siblings continues
and no error is surfaced. -/
theorem claim_C6 (s : List Char) (pos : Nat) (tag : String) (blob : List Char) (gt : Nat)
    (hopen : read_opening_tag s pos = some (tag, blob, gt))
    (hclose : find_closing_tag s tag pos = none) :
    build_node s pos = some (.mk tag
      (trimStr (String.mk (unescapeList
        ((s.take ((findCharFrom s '<' (gt + 1)).getD s.length)).drop (gt + 1)))))
      (parse_attributes_blob blob) [],
      (findCharFrom s '<' (gt + 1)).getD s.length) := by
  have hstep : build_node s pos = buildStep (buildNodeF s.length) s pos := rfl
  rw [hstep]
  unfold buildStep
  simp only [hopen, hclose]

theorem claim_C6_witness :
    build_node ("<a>hello".toList) 0 = some (XmlNode.mk "a" "hello" [] [], 8) :=
  claim_C6 ("<a>hello".toList) 0 "a" [] 2 rfl rfl

/-- Claim C9: a self-closing element (one whose last non-space character
before the closing `>` is the `/` marker) produces a node with empty text and
an empty children list, with the cursor just past the `>`. -/
theorem claim_C9 (s : List Char) (pos : Nat) (tag : String) (blob : List Char) (gt : Nat)
    (hopen : read_opening_tag s pos = some (tag, blob, gt))
    (hself : (((s.take gt).drop pos).reverse.dropWhile isSpaceC).head? = some '/') :
    build_node s pos = some (.mk tag "" (parse_attributes_blob blob) [], gt + 1) := by
  obtain ⟨hlt, hfte⟩ := read_opening_tag_spec s pos tag blob gt hopen
  have hgtc : s[gt]? = some '>' := (find_tag_end_some_spec s pos gt hfte).2.1
  have hclose : find_closing_tag s tag pos = some (gt, gt + 1, gt) := by
    unfold find_closing_tag
    simp only [hfte]
    rw [if_pos hself]
  have hstep : build_node s pos = buildStep (buildNodeF s.length) s pos := rfl
  rw [hstep]
  unfold buildStep
  simp only [hopen, hclose]
  rw [if_pos (by omega : gt + 1 ≥ gt), find_tag_end_at_gt s gt hgtc]

theorem claim_C9_witness :
    build_node ("<b/>".toList) 0 = some (XmlNode.mk "b" "" [] [], 4) :=
  claim_C9 ("<b/>".toList) 0 "b" [] 3 rfl rfl

/-- Claim C8 (amended): for every parsed element, the node's text equals the
concatenation of its non-element character runs, each run trimmed and
entity-unescaped (interior whitespace preserved, not collapsed), with
consecutive runs separated by exactly one space and runs that trim to nothing
omitted; the runs are the ones `elementTextRuns` extracts from the element's
inner span by the builder's own scan.  An element with an empty inner span has
no runs and empty text, and an element recovered as a text-only leaf (no
closing tag) has as its single run the content up to the next `<`, unescaped
and trimmed. -/
theorem claim_C8 (s : List Char) (pos : Nat) (node : XmlNode) (p' : Nat)
    (hbuild : build_node s pos = some (node, p')) :
    ∃ (tag : String) (blob : List Char) (gt : Nat),
      read_opening_tag s pos = some (tag, blob, gt)
      ∧ ((∃ cp istart iend, find_closing_tag s tag pos = some (cp, istart, iend)
            ∧ istart < iend
            ∧ (∀ r ∈ elementTextRuns s istart iend, r ≠ [] ∧ trimList r = r)
            ∧ node.inner_text = trimStr (String.intercalate " "
                ((elementTextRuns s istart iend).map (fun r => String.mk (unescapeList r)))))
        ∨ (∃ cp istart iend, find_closing_tag s tag pos = some (cp, istart, iend)
            ∧ istart ≥ iend ∧ node.inner_text = "")
        ∨ (find_closing_tag s tag pos = none
            ∧ node.inner_text = trimStr (String.mk (unescapeList
                ((s.take ((findCharFrom s '<' (gt + 1)).getD s.length)).drop (gt + 1)))))) := by
  have hstep : build_node s pos = buildStep (buildNodeF s.length) s pos := rfl
  rw [hstep] at hbuild
  unfold buildStep at hbuild
  cases hopen : read_opening_tag s pos with
  | none => rw [hopen] at hbuild; cases hbuild
  | some t3 =>
    obtain ⟨tag, blob, gt⟩ := t3
    refine ⟨tag, blob, gt, rfl, ?_⟩
    cases hclose : find_closing_tag s tag pos with
    | none =>
      simp only [hopen, hclose, Option.some.injEq, Prod.mk.injEq] at hbuild
      refine Or.inr (Or.inr ⟨rfl, ?_⟩)
      rw [← hbuild.1]
      rfl
    | some trip =>
      obtain ⟨cp, istart, iend⟩ := trip
      by_cases hle : istart ≥ iend
      · simp only [hopen, hclose, if_pos hle, Option.some.injEq, Prod.mk.injEq] at hbuild
        exact Or.inr (Or.inl ⟨cp, istart, iend, rfl, hle, by rw [← hbuild.1]; rfl⟩)
      · have hlt : istart < iend := by omega
        simp only [hopen, hclose, if_neg hle, Option.some.injEq, Prod.mk.injEq] at hbuild
        refine Or.inl ⟨cp, istart, iend, rfl, hlt, ?_, ?_⟩
        · intro r hr
          exact textRunsGo_trimmed (buildNodeF s.length) s ((s.take iend).drop istart)
            istart (((s.take iend).drop istart).length + 1) 0 r hr
        · rw [← hbuild.1]
          show trimStr (String.intercalate " "
            (loopGo (buildNodeF s.length) s ((s.take iend).drop istart) istart
              (((s.take iend).drop istart).length + 1) 0 [] []).2) = _
          rw [loopGo_segs_eq]
          simp [elementTextRuns]

theorem claim_C8_witness :
    ∃ (tag : String) (blob : List Char) (gt : Nat),
      read_opening_tag ("<a>x  y</a>".toList) 0 = some (tag, blob, gt)
      ∧ ((∃ cp istart iend,
            find_closing_tag ("<a>x  y</a>".toList) tag 0 = some (cp, istart, iend)
            ∧ istart < iend
            ∧ (∀ r ∈ elementTextRuns ("<a>x  y</a>".toList) istart iend,
                r ≠ [] ∧ trimList r = r)
            ∧ (XmlNode.mk "a" "x  y" [] []).inner_text
                = trimStr (String.intercalate " "
                    ((elementTextRuns ("<a>x  y</a>".toList) istart iend).map
                      (fun r => String.mk (unescapeList r)))))
        ∨ (∃ cp istart iend,
            find_closing_tag ("<a>x  y</a>".toList) tag 0 = some (cp, istart, iend)
            ∧ istart ≥ iend ∧ (XmlNode.mk "a" "x  y" [] []).inner_text = "")
        ∨ (find_closing_tag ("<a>x  y</a>".toList) tag 0 = none
            ∧ (XmlNode.mk "a" "x  y" [] []).inner_text
                = trimStr (String.mk (unescapeList
                    ((("<a>x  y</a>".toList).take
                        ((findCharFrom ("<a>x  y</a>".toList) '<' (gt + 1)).getD
                          ("<a>x  y</a>".toList).length)).drop (gt + 1)))))) :=
  claim_C8 ("<a>x  y</a>".toList) 0 (XmlNode.mk "a" "x  y" [] []) 11 rfl

/-- Claim C8 as frozen is false on the code: in `<a>x  y</a>` the single text
run is `"x  y"`; the claim's trimmed, whitespace-collapsed, unescaped value of
that run is `"x y"`, but the parser preserves the interior double space and
stores `"x  y"`. -/
theorem claim_C8_counterexample :
    build_node ("<a>x  y</a>".toList) 0 = some (XmlNode.mk "a" "x  y" [] [], 11)
    ∧ collapseWsStr (trimStr (String.mk (unescapeList "x  y".toList))) = "x y"
    ∧ ("x  y" : String) ≠ "x y" :=
  ⟨rfl, rfl, by decide⟩

end MaterialDB
